import Mathlib

/-!
Shallow embedding of the IDSCN repository (src/idscn/main.py).

Matrices (numpy 2-d arrays) are row-major nested lists of rationals.
External library primitives that are not code of this repository
(pingouin partial_corr, scipy norm.sf, numpy std) are abstract function
parameters of the embedding.  numpy float division is modelled with an
explicit result type NpVal carrying infinities and NaN, so that an
unguarded division by zero is visible in the embedding instead of being
collapsed by the rational convention x / 0 = 0.
-/

namespace IDSCN

/-- Matrix: row-major nested list of rationals, mirroring a numpy 2-d array. -/
abbrev Mat := List (List ℚ)

/-- Entry read m[i][j], with 0 returned out of range. -/
def mget (m : Mat) (i j : Nat) : ℚ := (m.getD i []).getD j 0

/-- Result of a numpy float computation: a finite rational, an infinity, or NaN. -/
inductive NpVal where
  | fin : ℚ → NpVal
  | inf : NpVal
  | ninf : NpVal
  | nan : NpVal
deriving DecidableEq

/-- Matrix of numpy computation results. -/
abbrev NpMat := List (List NpVal)

/-- Entry read of an NpMat, with NaN returned out of range. -/
def nget (m : NpMat) (i j : Nat) : NpVal := (m.getD i []).getD j NpVal.nan

/-- numpy division of two finite floats: a zero denominator yields an infinity
whose sign follows the numerator, or NaN for 0/0; nothing is raised. -/
def npDiv (a b : ℚ) : NpVal :=
  if b = 0 then (if 0 < a then NpVal.inf else if a < 0 then NpVal.ninf else NpVal.nan)
  else NpVal.fin (a / b)

/-- Denominator matrix of Z_score (main.py 235-238): d = ones - PCCn * PCCn with the
diagonal then overwritten with 1 before any division takes place. -/
def Z_den (PCCn : Mat) : Mat :=
  (List.range PCCn.length).map fun i =>
    (List.range PCCn.length).map fun j =>
      if i = j then 1 else 1 - mget PCCn i j * mget PCCn i j

/-- Quotient matrix Z = (n - 1) * delta_PCC / d of main.py 239, where n = PCCn.shape[0]
is the matrix dimension (the number of regions). -/
def Z_pre (PCCn delta_PCC : Mat) : NpMat :=
  (List.range PCCn.length).map fun i =>
    (List.range PCCn.length).map fun j =>
      npDiv (((PCCn.length : ℚ) - 1) * mget delta_PCC i j) (mget (Z_den PCCn) i j)

/-- Z_score (main.py 221-242): the quotient matrix with its diagonal overwritten with 1. -/
def Z_score (PCCn delta_PCC : Mat) : NpMat :=
  (List.range PCCn.length).map fun i =>
    (List.range PCCn.length).map fun j =>
      if i = j then NpVal.fin 1 else nget (Z_pre PCCn delta_PCC) i j

/-- Cohort table: column names plus data rows (a pandas DataFrame of numbers). -/
structure Table where
  cols : List String
  rows : List (List ℚ)

/-- Type of the external pingouin partial_corr primitive, in argument order
(data, x, y, covar).  The repository calls it as a black box. -/
abbrev PCorrFn := Table → String → String → List String → ℚ

/-- PCC (main.py 167-200): one independent partial_corr call for every ordered pair of
distinct region names (both orientations are computed); 1.0 where the names coincide. -/
def PCC (pcorr : PCorrFn) (covas : List String) (regions : List String) (group : Table) : Mat :=
  regions.map fun r1 => regions.map fun r2 =>
    if r1 ≠ r2 then pcorr group r1 r2 covas else 1

/-- numpy mean of a sample list (exact rational arithmetic). -/
def npMean (l : List ℚ) : ℚ := l.sum / l.length

/-- SCN permutation z matrix (main.py 586-591): built from zeros, only entries with
i < j are computed and mirrored, the diagonal is never assigned.  The numpy standard
deviation (a square root) is an abstract parameter std. -/
def scn_z_matrix (std : List ℚ → ℚ) (D_obs : Mat) (D_permuted : List Mat) (n : Nat) : NpMat :=
  (List.range n).map fun i =>
    (List.range n).map fun j =>
      if i < j then
        npDiv (mget D_obs i j - npMean (D_permuted.map fun M => mget M i j))
          (std (D_permuted.map fun M => mget M i j))
      else if j < i then
        npDiv (mget D_obs j i - npMean (D_permuted.map fun M => mget M j i))
          (std (D_permuted.map fun M => mget M j i))
      else NpVal.fin 0

/-- Empirical permutation p-value of one edge (main.py 597-600): the null samples more
extreme than the real signed difference are counted with strict comparison, the
direction given by the sign of that difference, with the +1/(n+1) continuity terms. -/
def scn_pvalue (samples : List ℚ) (d : ℚ) (nperm : Nat) : ℚ :=
  if 0 < d then ((samples.countP fun x => decide (d < x)) + 1 : ℚ) / ((nperm : ℚ) + 1)
  else ((samples.countP fun x => decide (x < d)) + 1 : ℚ) / ((nperm : ℚ) + 1)

/-- SCN permutation p matrix (main.py 594-602): entries with i < j computed and
mirrored, diagonal left at 0. -/
def scn_p_matrix (D_permuted : List Mat) (diff_real : Mat) (n nperm : Nat) : Mat :=
  (List.range n).map fun i =>
    (List.range n).map fun j =>
      if i < j then scn_pvalue (D_permuted.map fun M => mget M i j) (mget diff_real i j) nperm
      else if j < i then scn_pvalue (D_permuted.map fun M => mget M j i) (mget diff_real j i) nperm
      else 0

/-- Suffix minima of a list, mirroring the reversed np.minimum.accumulate of
statsmodels fdrcorrection. -/
def sufMin : List ℚ → List ℚ
  | [] => []
  | a :: t =>
    match sufMin t with
    | [] => [a]
    | b :: r => min a b :: b :: r

/-- Stable ascending sort of the p-values paired with their original positions
(the argsort of statsmodels fdrcorrection). -/
def bhSorted (ps : List ℚ) : List (Nat × ℚ) :=
  List.insertionSort (fun a b => a.2 ≤ b.2) ps.enum

/-- Benjamini-Hochberg scaling p_(k) * n / (k + 1) of the sorted p-values. -/
def bhEcdf (ps : List ℚ) : List ℚ :=
  (bhSorted ps).enum.map fun kp => kp.2.2 * (ps.length : ℚ) / ((kp.1 : ℚ) + 1)

/-- Running suffix minimum of the scaled values, then clipped at 1, as in
statsmodels fdrcorrection. -/
def bhCorr (ps : List ℚ) : List ℚ :=
  (sufMin (bhEcdf ps)).map fun q => min q 1

/-- Sorted entries paired with their corrected values. -/
def bhPairs (ps : List ℚ) : List ((Nat × ℚ) × ℚ) :=
  (bhSorted ps).zip (bhCorr ps)

/-- statsmodels fdrcorrection (Benjamini-Hochberg) on a flat list of p-values:
corrected values are put back at their original positions. -/
def fdrcorrection (ps : List ℚ) : List ℚ :=
  (List.range ps.length).map fun i =>
    (((bhPairs ps).find? fun x => x.1.1 == i).map fun x => x.2).getD 0

/-- Raw two-sided p matrix sps.norm.sf(abs(Z)) * 2 of main.py 306, with the scipy
standard normal survival function an abstract parameter sf. -/
def normP (sf : ℚ → ℚ) (Z : Mat) : Mat :=
  Z.map (List.map fun z => sf |z| * 2)

/-- Reshape of a flat list back to the row lengths of a model matrix
(the reshape(shape) of main.py 309). -/
def reshapeLike : Mat → List ℚ → Mat
  | [], _ => []
  | r :: rs, l => l.take r.length :: reshapeLike rs (l.drop r.length)

/-- P (main.py 305-309): raw two-sided p-values, and the Benjamini-Hochberg correction
applied across the whole flattened matrix (diagonal included) reshaped back. -/
def P (sf : ℚ → ℚ) (Z : Mat) : Mat × Mat :=
  (normP sf Z, reshapeLike (normP sf Z) (fdrcorrection (normP sf Z).flatten))

/-- Row-major list of positions with entry strictly below a threshold
(np.argwhere(m < t)). -/
def argwhereLt (m : Mat) (t : ℚ) : List (Nat × Nat) :=
  (List.range m.length).flatMap fun i =>
    (List.range (m.getD i []).length).filterMap fun j =>
      if mget m i j < t then some (i, j) else none

/-- Increment of the significance count matrix at a list of distinct positions
(significant[rows, cols] = significant[rows, cols] + 1). -/
def addSignificant (s : Mat) (locs : List (Nat × Nat)) : Mat :=
  s.mapIdx fun i row => row.mapIdx fun j v => if (i, j) ∈ locs then v + 1 else v

/-- Per-patient accumulation step of subtype (main.py 375-383): positions with
FDR-corrected p below 0.05 are incremented, unconditionally using the correction. -/
def subtypeStep (sf : ℚ → ℚ) (s Z : Mat) : Mat :=
  addSignificant s (argwhereLt (P sf Z).2 (1 / 20))

/-- Per-patient accumulation step of getConnection (main.py 486-496): positions with
raw p below 0.05 by default, and with FDR-corrected p below 0.05 when fdr is true. -/
def getConnectionStep (sf : ℚ → ℚ) (fdr : Bool) (s Z : Mat) : Mat :=
  addSignificant s
    (if fdr then argwhereLt (P sf Z).2 (1 / 20) else argwhereLt (P sf Z).1 (1 / 20))

/-- Rank group entry of the list built by draw_signifcant (main.py 312-321):
significance count, stored group size, and the edge list of the group. -/
abbrev RankGroup := ℚ × Nat × List (Nat × Nat)

/-- Loop body of getTopLocs (main.py 350-358).  none models the IndexError raised when
the rank list is exhausted while the accumulated size c is still below num. -/
def getTopLocsAux (num : Nat) :
    List RankGroup → Nat → List (Nat × Nat) → Option (List (Nat × Nat))
  | [], c, locs => if c < num then none else some locs
  | g :: t, c, locs =>
    if c < num then getTopLocsAux num t (c + g.2.1) (locs ++ g.2.2) else some locs

/-- getTopLocs (main.py 350-358): walk the rank groups from the front, consuming each
group whole, until at least num edges have been accumulated. -/
def getTopLocs (count : List RankGroup) (num : Nat) : Option (List (Nat × Nat)) :=
  getTopLocsAux num count 0 []

/-- np.count_nonzero(correct_P < 0.05) of main.py 288, over the whole matrix. -/
def countSignificant (correct_P : Mat) : Nat :=
  correct_P.flatten.countP fun q => decide (q < 1 / 20)

/-- Bookkeeping of the IDSCN subject loop (main.py 271-292) for the two data frames:
the first component collects the rows appended to the region-matrix frame df, the
second the rows of df_n.  Line 288 appends the row [sub, count] to df, never to df_n,
so the second component is left untouched by every iteration. -/
def IDSCN_loop (items : List (String × Mat)) : List (String × ℚ) × List (String × ℚ) :=
  items.foldl (fun st sc => (st.1 ++ [(sc.1, (countSignificant sc.2 : ℚ))], st.2)) ([], [])

/-- Rows persisted to count_significant.csv (main.py 292): the rows of df_n after
the subject loop. -/
def count_significant_rows (items : List (String × Mat)) : List (String × ℚ) :=
  (IDSCN_loop items).2

/-- Partial-correlation primitive that returns 0 everywhere (a concrete instance of
the external black box, used for concrete evaluations). -/
def czero : PCorrFn := fun _ _ _ _ => 0

/-- Partial-correlation primitive that is not symmetric in its two targets. -/
def casym : PCorrFn := fun _ x _ _ => if x = "r1" then 1 / 2 else 1 / 3

/-- Concrete control table with five subject rows and columns for one covariate and
two regions. -/
def tbl5 : Table := ⟨["age", "r1", "r2"], List.replicate 5 [0, 0, 0]⟩

/-- Concrete control table with four subject rows. -/
def tbl4 : Table := ⟨["c", "r1", "r2"], List.replicate 4 [0, 0, 0]⟩

instance : IsTotal (Nat × ℚ) (fun a b => a.2 ≤ b.2) := ⟨fun a b => le_total a.2 b.2⟩

instance : IsTrans (Nat × ℚ) (fun a b => a.2 ≤ b.2) := ⟨fun _ _ _ h h2 => le_trans h h2⟩

lemma getD_map_range {α : Type} (d : α) {n i : Nat} (g : Nat → α) (hi : i < n) :
    ((List.range n).map g).getD i d = g i := by
  rw [List.getD_eq_getElem?_getD, List.getElem?_map, List.getElem?_range hi]
  rfl

lemma getD_map_get {α β : Type} (f : α → β) (l : List α) {i : Nat} (hi : i < l.length) (d : β) :
    (l.map f).getD i d = f l[i] := by
  rw [List.getD_eq_getElem?_getD, List.getElem?_map, List.getElem?_eq_getElem hi]
  rfl

lemma Z_den_get (PCCn : Mat) {i j : Nat} (hi : i < PCCn.length) (hj : j < PCCn.length) :
    mget (Z_den PCCn) i j = if i = j then 1 else 1 - mget PCCn i j * mget PCCn i j := by
  simp only [Z_den, mget]
  rw [getD_map_range ([] : List ℚ) _ hi, getD_map_range (0 : ℚ) _ hj]

lemma Z_pre_get (PCCn delta_PCC : Mat) {i j : Nat}
    (hi : i < PCCn.length) (hj : j < PCCn.length) :
    nget (Z_pre PCCn delta_PCC) i j =
      npDiv (((PCCn.length : ℚ) - 1) * mget delta_PCC i j) (mget (Z_den PCCn) i j) := by
  simp only [Z_pre, nget]
  rw [getD_map_range ([] : List NpVal) _ hi, getD_map_range NpVal.nan _ hj]

lemma Z_score_get (PCCn delta_PCC : Mat) {i j : Nat}
    (hi : i < PCCn.length) (hj : j < PCCn.length) :
    nget (Z_score PCCn delta_PCC) i j =
      if i = j then NpVal.fin 1 else nget (Z_pre PCCn delta_PCC) i j := by
  simp only [Z_score, nget]
  rw [getD_map_range ([] : List NpVal) _ hi, getD_map_range NpVal.nan _ hj]

lemma PCC_get (pcorr : PCorrFn) (covas regions : List String) (group : Table)
    {i j : Nat} (hi : i < regions.length) (hj : j < regions.length) :
    mget (PCC pcorr covas regions group) i j =
      if regions[i] ≠ regions[j] then pcorr group regions[i] regions[j] covas else 1 := by
  simp only [PCC, mget]
  rw [getD_map_get _ _ hi, getD_map_get _ _ hj]

lemma PCC_length (pcorr : PCorrFn) (covas regions : List String) (group : Table) :
    (PCC pcorr covas regions group).length = regions.length := by
  simp [PCC]

lemma IDSCN_loop_snd (items : List (String × Mat)) : (IDSCN_loop items).2 = [] := by
  have h : ∀ (l : List (String × Mat)) (st : List (String × ℚ) × List (String × ℚ)),
      (l.foldl (fun st sc => (st.1 ++ [(sc.1, (countSignificant sc.2 : ℚ))], st.2)) st).2
        = st.2 := by
    intro l
    induction l with
    | nil => intro st; rfl
    | cons a t ih => intro st; exact ih _
  exact h items ([], [])

/-- C10 (confirmed): the denominator matrix of Z_score has its diagonal overwritten
with 1 before the division, so the diagonal division is by 1, well defined and finite,
and the final diagonal of the Z matrix is forced to 1.0. -/
theorem Z_den_diag_safe (PCCn delta_PCC : Mat) (i : Nat) (hi : i < PCCn.length) :
    mget (Z_den PCCn) i i = 1 ∧
    nget (Z_pre PCCn delta_PCC) i i =
      NpVal.fin (((PCCn.length : ℚ) - 1) * mget delta_PCC i i) ∧
    nget (Z_score PCCn delta_PCC) i i = NpVal.fin 1 := by
  have h1 : mget (Z_den PCCn) i i = 1 := by rw [Z_den_get _ hi hi]; simp
  refine ⟨h1, ?_, ?_⟩
  · rw [Z_pre_get _ _ hi hi, h1]
    simp [npDiv]
  · rw [Z_score_get _ _ hi hi]
    simp

/-- C10 witness: concrete evaluation of the diagonal guarantees on a 1 x 1 input. -/
theorem Z_den_diag_safe_witness :
    mget (Z_den [[1]]) 0 0 = 1 ∧
    nget (Z_pre [[1]] [[5]]) 0 0 =
      NpVal.fin (((([[1]] : Mat).length : ℚ) - 1) * mget [[5]] 0 0) ∧
    nget (Z_score [[1]] [[5]]) 0 0 = NpVal.fin 1 :=
  Z_den_diag_safe [[1]] [[5]] 0 (by decide)

/-- C1 counterexample: for a control table with five rows and two regions, the
off-diagonal Z entry does not equal (n_ctrl - 1) * delta / (1 - PCN^2): the code uses
the matrix dimension (2 regions) rather than the number of control rows (5). -/
theorem Z_score_nctrl_counterexample :
    tbl5.rows.length = 5 ∧
    nget (Z_score (PCC czero ["age"] ["r1", "r2"] tbl5) [[0, 1], [1, 0]]) 0 1 ≠
      NpVal.fin (((tbl5.rows.length : ℚ) - 1) * mget [[0, 1], [1, 0]] 0 1 /
        (1 - mget (PCC czero ["age"] ["r1", "r2"] tbl5) 0 1 *
          mget (PCC czero ["age"] ["r1", "r2"] tbl5) 0 1)) := by
  refine ⟨rfl, ?_⟩
  simp +decide [Z_score, Z_pre, Z_den, PCC, nget, mget, npDiv, czero, tbl5, List.range_succ]

/-- C1 (corrected): the Z matrix satisfies
Z[i][j] = (n - 1) * delta[i][j] / (1 - PCN[i][j]^2) off the diagonal where n is the
dimension of the baseline PCN (the number of regions), not the number of control
rows, and the diagonal is forced to 1.0. -/
theorem Z_score_formula_dim (pcorr : PCorrFn) (covas regions : List String) (group : Table)
    (delta_PCC : Mat) (i j : Nat) (hi : i < regions.length) (hj : j < regions.length) :
    (i ≠ j → nget (Z_score (PCC pcorr covas regions group) delta_PCC) i j =
      npDiv (((regions.length : ℚ) - 1) * mget delta_PCC i j)
        (1 - mget (PCC pcorr covas regions group) i j *
          mget (PCC pcorr covas regions group) i j)) ∧
    nget (Z_score (PCC pcorr covas regions group) delta_PCC) i i = NpVal.fin 1 := by
  have hlen := PCC_length pcorr covas regions group
  have hi' : i < (PCC pcorr covas regions group).length := by rw [hlen]; exact hi
  have hj' : j < (PCC pcorr covas regions group).length := by rw [hlen]; exact hj
  constructor
  · intro hij
    rw [Z_score_get _ _ hi' hj', if_neg hij, Z_pre_get _ _ hi' hj', Z_den_get _ hi' hj',
      if_neg hij, hlen]
  · rw [Z_score_get _ _ hi' hi']
    simp

/-- C1 witness: the corrected formula evaluated on the five-row control table with
two regions. -/
theorem Z_score_formula_dim_witness :
    (0 ≠ 1 → nget (Z_score (PCC czero ["age"] ["r1", "r2"] tbl5) [[0, 1], [1, 0]]) 0 1 =
      npDiv ((((["r1", "r2"] : List String).length : ℚ) - 1) * mget [[0, 1], [1, 0]] 0 1)
        (1 - mget (PCC czero ["age"] ["r1", "r2"] tbl5) 0 1 *
          mget (PCC czero ["age"] ["r1", "r2"] tbl5) 0 1)) ∧
    nget (Z_score (PCC czero ["age"] ["r1", "r2"] tbl5) [[0, 1], [1, 0]]) 0 0 =
      NpVal.fin 1 :=
  Z_score_formula_dim czero ["age"] ["r1", "r2"] tbl5 [[0, 1], [1, 0]] 0 1
    (by decide) (by decide)

/-- C6 counterexample: with a baseline correlation of 1 off the diagonal and a nonzero
differential entry, Z_score returns a matrix containing infinity at that entry; no
exception and no flag is produced by the code. -/
theorem Z_score_inf_counterexample :
    nget (Z_score [[1, 1], [1, 1]] [[0, 1 / 2], [1 / 2, 0]]) 0 1 = NpVal.inf := by
  norm_num [Z_score, Z_pre, Z_den, nget, mget, npDiv, List.range_succ]

/-- C6 (corrected): Z_score does not guard the zero denominator: at every off-diagonal
entry whose baseline correlation squares to 1, a positive differential entry makes the
returned matrix carry positive infinity there, silently. -/
theorem Z_score_unguarded (PCCn delta_PCC : Mat) (i j : Nat)
    (hi : i < PCCn.length) (hj : j < PCCn.length) (hij : i ≠ j)
    (hden : mget PCCn i j * mget PCCn i j = 1) (hpos : 0 < mget delta_PCC i j) :
    nget (Z_score PCCn delta_PCC) i j = NpVal.inf := by
  rw [Z_score_get _ _ hi hj, if_neg hij, Z_pre_get _ _ hi hj, Z_den_get _ hi hj,
    if_neg hij, hden]
  have hn : 2 ≤ PCCn.length := by omega
  have hn' : (2 : ℚ) ≤ (PCCn.length : ℚ) := by exact_mod_cast hn
  have hnum : 0 < ((PCCn.length : ℚ) - 1) * mget delta_PCC i j := by
    apply mul_pos _ hpos
    linarith
  have hzero : (1 : ℚ) - 1 = 0 := by norm_num
  rw [hzero, npDiv, if_pos rfl, if_pos hnum]

/-- C6 witness: the unguarded division evaluated at the mirrored entry of the same
concrete input. -/
theorem Z_score_unguarded_witness :
    nget (Z_score [[1, 1], [1, 1]] [[0, 1 / 2], [1 / 2, 0]]) 1 0 = NpVal.inf :=
  Z_score_unguarded [[1, 1], [1, 1]] [[0, 1 / 2], [1 / 2, 0]] 1 0
    (by decide) (by decide) (by decide) (by simp [mget]) (by simp [mget])

/-- C5 counterexample: the engine calls the partial-correlation primitive once per
ordered pair rather than once per unordered pair, so a primitive that is not symmetric
in its two targets makes the returned matrix asymmetric, with two regions. -/
theorem PCC_symm_counterexample :
    (["r1", "r2"] : List String).length = 2 ∧
    mget (PCC casym ["c"] ["r1", "r2"] tbl4) 0 1 ≠
      mget (PCC casym ["c"] ["r1", "r2"] tbl4) 1 0 := by
  refine ⟨rfl, ?_⟩
  simp +decide [PCC, casym, mget]

/-- C5 (corrected): the diagonal of the PCC matrix is exactly 1.0; each unordered
off-diagonal pair is computed twice, once per orientation, so the matrix is symmetric
whenever the underlying partial-correlation primitive is symmetric in its two targets,
but not by construction. -/
theorem PCC_diag_symm_conditional (pcorr : PCorrFn) (covas regions : List String)
    (group : Table) (i j : Nat) (hi : i < regions.length) (hj : j < regions.length) :
    mget (PCC pcorr covas regions group) i i = 1 ∧
    ((∀ g x y c, pcorr g x y c = pcorr g y x c) →
      mget (PCC pcorr covas regions group) i j = mget (PCC pcorr covas regions group) j i) := by
  constructor
  · rw [PCC_get pcorr covas regions group hi hi]
    simp
  · intro hsym
    rw [PCC_get pcorr covas regions group hi hj, PCC_get pcorr covas regions group hj hi]
    rcases eq_or_ne regions[i] regions[j] with h | h
    · simp [h]
    · rw [if_pos h, if_pos (Ne.symm h), hsym]

/-- C5 witness: the conditional symmetry and unit diagonal evaluated on the four-row
table with two regions and the everywhere-zero primitive. -/
theorem PCC_diag_symm_conditional_witness :
    mget (PCC czero ["c"] ["r1", "r2"] tbl4) 0 0 = 1 ∧
    ((∀ g x y c, czero g x y c = czero g y x c) →
      mget (PCC czero ["c"] ["r1", "r2"] tbl4) 0 1 =
        mget (PCC czero ["c"] ["r1", "r2"] tbl4) 1 0) :=
  PCC_diag_symm_conditional czero ["c"] ["r1", "r2"] tbl4 0 1 (by decide) (by decide)

/-- C3 counterexample: on the scenario rank list with target 2, getTopLocs does not
return [(0,2),(1,2)]; the edge of the first rank group is also included. -/
theorem getTopLocs_counterexample :
    getTopLocs [(3, 1, [(0, 1)]), (2, 2, [(0, 2), (1, 2)]), (0, 1, [(0, 3)])] 2 ≠
      some [(0, 2), (1, 2)] := by
  decide

/-- C3 (corrected): the scenario rank list with target 2 yields the first two rank
groups in full, [(0,1),(0,2),(1,2)]: the walk starts at the highest rank group and
stops only once at least 2 edges are accumulated. -/
theorem getTopLocs_scenario :
    getTopLocs [(3, 1, [(0, 1)]), (2, 2, [(0, 2), (1, 2)]), (0, 1, [(0, 3)])] 2 =
      some [(0, 1), (0, 2), (1, 2)] := by
  decide

/-- C2 (code_bug): the subject loop appends every per-subject row to the region-matrix
frame df and never to df_n, so count_significant.csv always receives zero data rows;
in particular a run over one patient leaves it empty instead of one row per patient. -/
theorem count_significant_rows_empty :
    (∀ items, count_significant_rows items = []) ∧
    count_significant_rows [("sub-001", [[0, 0], [0, 0]])] = [] ∧
    [("sub-001", ([[0, 0], [0, 0]] : Mat))].length = 1 := by
  refine ⟨fun items => IDSCN_loop_snd items, IDSCN_loop_snd _, rfl⟩

lemma scn_p_get (D_permuted : List Mat) (diff_real : Mat) (n nperm : Nat)
    {i j : Nat} (hi : i < n) (hj : j < n) :
    mget (scn_p_matrix D_permuted diff_real n nperm) i j =
      if i < j then
        scn_pvalue (D_permuted.map fun M => mget M i j) (mget diff_real i j) nperm
      else if j < i then
        scn_pvalue (D_permuted.map fun M => mget M j i) (mget diff_real j i) nperm
      else 0 := by
  simp only [scn_p_matrix, mget]
  rw [getD_map_range ([] : List ℚ) _ hi, getD_map_range (0 : ℚ) _ hj]

lemma scn_z_get (std : List ℚ → ℚ) (D_obs : Mat) (D_permuted : List Mat) (n : Nat)
    {i j : Nat} (hi : i < n) (hj : j < n) :
    nget (scn_z_matrix std D_obs D_permuted n) i j =
      if i < j then
        npDiv (mget D_obs i j - npMean (D_permuted.map fun M => mget M i j))
          (std (D_permuted.map fun M => mget M i j))
      else if j < i then
        npDiv (mget D_obs j i - npMean (D_permuted.map fun M => mget M j i))
          (std (D_permuted.map fun M => mget M j i))
      else NpVal.fin 0 := by
  simp only [scn_z_matrix, nget]
  rw [getD_map_range ([] : List NpVal) _ hi, getD_map_range NpVal.nan _ hj]

/-- C4 (confirmed): for every edge with i < j the permutation p-value equals
(count of null samples strictly more extreme than the real signed difference + 1)
divided by (nPermutations + 1), the direction of more extreme following the sign of the
real difference; hence it is at least 1/(nPermutations + 1) and strictly positive. -/
theorem scn_pvalue_spec (D_permuted : List Mat) (diff_real : Mat) (n nperm : Nat)
    (i j : Nat) (hij : i < j) (hj : j < n) :
    mget (scn_p_matrix D_permuted diff_real n nperm) i j =
      (((if 0 < mget diff_real i j then
          (D_permuted.map fun M => mget M i j).countP fun x =>
            decide (mget diff_real i j < x)
        else
          (D_permuted.map fun M => mget M i j).countP fun x =>
            decide (x < mget diff_real i j)) : ℚ) + 1) / ((nperm : ℚ) + 1) ∧
    1 / ((nperm : ℚ) + 1) ≤ mget (scn_p_matrix D_permuted diff_real n nperm) i j ∧
    0 < mget (scn_p_matrix D_permuted diff_real n nperm) i j := by
  have hi : i < n := lt_trans hij hj
  have hm : mget (scn_p_matrix D_permuted diff_real n nperm) i j =
      scn_pvalue (D_permuted.map fun M => mget M i j) (mget diff_real i j) nperm := by
    rw [scn_p_get D_permuted diff_real n nperm hi hj, if_pos hij]
  have hden : (0 : ℚ) < (nperm : ℚ) + 1 := by positivity
  have hle : 1 / ((nperm : ℚ) + 1) ≤
      scn_pvalue (D_permuted.map fun M => mget M i j) (mget diff_real i j) nperm := by
    rw [scn_pvalue]
    split_ifs with h
    · apply (div_le_div_iff_of_pos_right hden).mpr
      have := Nat.cast_nonneg (α := ℚ)
        ((D_permuted.map fun M => mget M i j).countP fun x => decide (mget diff_real i j < x))
      linarith
    · apply (div_le_div_iff_of_pos_right hden).mpr
      have := Nat.cast_nonneg (α := ℚ)
        ((D_permuted.map fun M => mget M i j).countP fun x => decide (x < mget diff_real i j))
      linarith
  refine ⟨?_, ?_, ?_⟩
  · rw [hm, scn_pvalue]
    split_ifs with h
    · rfl
    · rfl
  · rw [hm]
    exact hle
  · rw [hm]
    calc (0 : ℚ) < 1 / ((nperm : ℚ) + 1) := by positivity
    _ ≤ _ := hle

/-- C4 witness: the p-value guarantees evaluated with zero permutations on a 2 x 2
difference matrix with a positive real difference at edge (0,1). -/
theorem scn_pvalue_spec_witness :
    mget (scn_p_matrix [] [[0, 1], [0, 0]] 2 0) 0 1 =
      (((if 0 < mget [[0, 1], [0, 0]] 0 1 then
          (([] : List Mat).map fun M => mget M 0 1).countP fun x =>
            decide (mget [[0, 1], [0, 0]] 0 1 < x)
        else
          (([] : List Mat).map fun M => mget M 0 1).countP fun x =>
            decide (x < mget [[0, 1], [0, 0]] 0 1)) : ℚ) + 1) / (((0 : Nat) : ℚ) + 1) ∧
    1 / (((0 : Nat) : ℚ) + 1) ≤ mget (scn_p_matrix [] [[0, 1], [0, 0]] 2 0) 0 1 ∧
    0 < mget (scn_p_matrix [] [[0, 1], [0, 0]] 2 0) 0 1 :=
  scn_pvalue_spec [] [[0, 1], [0, 0]] 2 0 0 1 (by decide) (by decide)

/-- C8 (confirmed): the SCN permutation z matrix is built from zeros with only the
entries with i < j assigned and mirrored, so its diagonal stays 0.0, while the
per-subject IDSCN Z matrix has its diagonal forced to 1.0. -/
theorem scn_z_diag_zero :
    (∀ (std : List ℚ → ℚ) (D_obs : Mat) (D_permuted : List Mat) (n i : Nat), i < n →
      nget (scn_z_matrix std D_obs D_permuted n) i i = NpVal.fin 0) ∧
    (∀ (PCCn delta_PCC : Mat) (i : Nat), i < PCCn.length →
      nget (Z_score PCCn delta_PCC) i i = NpVal.fin 1) := by
  constructor
  · intro std D_obs D_permuted n i hi
    rw [scn_z_get std D_obs D_permuted n hi hi]
    simp
  · intro PCCn delta_PCC i hi
    rw [Z_score_get _ _ hi hi]
    simp

/-- C8 witness: diagonal entries evaluated on concrete 1 x 1 inputs of both engines. -/
theorem scn_z_diag_zero_witness :
    nget (scn_z_matrix (fun _ => 1) [[0]] [] 1) 0 0 = NpVal.fin 0 ∧
    nget (Z_score [[1]] [[0]]) 0 0 = NpVal.fin 1 :=
  ⟨scn_z_diag_zero.1 (fun _ => 1) [[0]] [] 1 0 (by decide),
    scn_z_diag_zero.2 [[1]] [[0]] 0 (by decide)⟩

lemma sufMin_length (l : List ℚ) : (sufMin l).length = l.length := by
  induction l with
  | nil => rfl
  | cons a t ih =>
    rw [sufMin]
    cases h : sufMin t with
    | nil =>
      have : t.length = 0 := by rw [← ih, h]; rfl
      simp [this]
    | cons b r =>
      have : t.length = r.length + 1 := by rw [← ih, h]; rfl
      simp [this]

lemma le_sufMin (l : List ℚ) (k : Nat) (c : ℚ) (hk : k < l.length)
    (h : ∀ j, k ≤ j → j < l.length → c ≤ l.getD j 0) :
    c ≤ (sufMin l).getD k 0 := by
  induction l generalizing k with
  | nil => simp at hk
  | cons a t ih =>
    rw [sufMin]
    cases k with
    | zero =>
      cases hsm : sufMin t with
      | nil =>
        rw [List.getD_cons_zero]
        exact h 0 (le_refl 0) hk
      | cons b r =>
        rw [List.getD_cons_zero]
        have ht : 0 < t.length := by
          rw [← sufMin_length, hsm]; exact Nat.succ_pos _
        apply le_min
        · exact h 0 (le_refl 0) hk
        · have hb : c ≤ (sufMin t).getD 0 0 := by
            apply ih 0 ht
            intro j hj hjl
            exact h (j + 1) (Nat.zero_le _) (Nat.succ_lt_succ hjl)
          rw [hsm, List.getD_cons_zero] at hb
          exact hb
    | succ k =>
      cases hsm : sufMin t with
      | nil =>
        have : t.length = 0 := by rw [← sufMin_length, hsm]; rfl
        simp [this] at hk
      | cons b r =>
        rw [List.getD_cons_succ]
        have hk' : k < t.length := Nat.lt_of_succ_lt_succ hk
        have hb : c ≤ (sufMin t).getD k 0 := by
          apply ih k hk'
          intro j hj hjl
          exact h (j + 1) (Nat.succ_le_succ hj) (Nat.succ_lt_succ hjl)
        rw [hsm] at hb
        exact hb

lemma bhSorted_length (ps : List ℚ) : (bhSorted ps).length = ps.length := by
  rw [bhSorted, List.length_insertionSort, List.enum_length]

lemma bhEcdf_length (ps : List ℚ) : (bhEcdf ps).length = ps.length := by
  rw [bhEcdf, List.length_map, List.enum_length, bhSorted_length]

lemma bhCorr_length (ps : List ℚ) : (bhCorr ps).length = ps.length := by
  rw [bhCorr, List.length_map, sufMin_length, bhEcdf_length]

lemma bhPairs_length (ps : List ℚ) : (bhPairs ps).length = ps.length := by
  rw [bhPairs, List.length_zip, bhSorted_length, bhCorr_length, Nat.min_self]

lemma fdrcorrection_length (ps : List ℚ) : (fdrcorrection ps).length = ps.length := by
  rw [fdrcorrection, List.length_map, List.length_range]

lemma bhSorted_perm (ps : List ℚ) : List.Perm (bhSorted ps) ps.enum :=
  List.perm_insertionSort _ _

lemma bhSorted_snd_mem (ps : List ℚ) {x : Nat × ℚ} (hx : x ∈ bhSorted ps) : x.2 ∈ ps := by
  have hx' : x ∈ ps.enum := (bhSorted_perm ps).mem_iff.mp hx
  have := List.mk_mem_enum_iff_getElem?.mp hx'
  exact List.getElem?_mem this

lemma getD_of_lt {α : Type} (l : List α) {i : Nat} (hi : i < l.length) (d : α) :
    l.getD i d = l[i] := by
  rw [List.getD_eq_getElem?_getD, List.getElem?_eq_getElem hi]
  rfl

lemma bh_sorted_le_corr (ps : List ℚ) (hp : ∀ x ∈ ps, 0 ≤ x ∧ x ≤ 1)
    (k : Nat) (hk : k < ps.length) :
    ((bhSorted ps).getD k (0, 0)).2 ≤ (bhCorr ps).getD k 0 := by
  have hks : k < (bhSorted ps).length := by rw [bhSorted_length]; exact hk
  have hke : k < (bhEcdf ps).length := by rw [bhEcdf_length]; exact hk
  have hkm : k < (sufMin (bhEcdf ps)).length := by rw [sufMin_length]; exact hke
  have hxmem : (bhSorted ps).getD k (0, 0) ∈ bhSorted ps := by
    rw [getD_of_lt _ hks]
    exact List.getElem_mem hks
  have hx2 := hp _ (bhSorted_snd_mem ps hxmem)
  rw [bhCorr, getD_map_get _ _ hkm]
  apply le_min _ hx2.2
  rw [← getD_of_lt _ hkm]
  apply le_sufMin _ _ _ hke
  intro j hkj hjl
  have hjp : j < ps.length := by rw [bhEcdf_length] at hjl; exact hjl
  have hjs : j < (bhSorted ps).length := by rw [bhSorted_length]; exact hjp
  have hje : j < (bhSorted ps).enum.length := by rw [List.enum_length]; exact hjs
  rw [bhEcdf, getD_map_get _ _ hje, List.getElem_enum]
  have hsorted : List.Sorted (fun a b : Nat × ℚ => a.2 ≤ b.2) (bhSorted ps) :=
    List.sorted_insertionSort _ _
  have hqkj : ((bhSorted ps).getD k (0, 0)).2 ≤ ((bhSorted ps)[j]).2 := by
    rcases Nat.eq_or_lt_of_le hkj with h | hlt
    · subst h
      rw [getD_of_lt _ hks]
    · have hr := hsorted.rel_get_of_lt (a := ⟨k, hks⟩) (b := ⟨j, hjs⟩)
        (Fin.mk_lt_mk.mpr hlt)
      rw [getD_of_lt _ hks]
      simpa [List.get_eq_getElem] using hr
  have hj2 : 0 ≤ ((bhSorted ps)[j]).2 :=
    (hp _ (bhSorted_snd_mem ps (List.getElem_mem hjs))).1
  have hfrac : (1 : ℚ) ≤ (ps.length : ℚ) / ((j : ℚ) + 1) := by
    rw [le_div_iff₀ (by positivity)]
    have hcast : (j : ℚ) + 1 ≤ (ps.length : ℚ) := by
      have : j + 1 ≤ ps.length := hjp
      exact_mod_cast this
    linarith
  calc ((bhSorted ps).getD k (0, 0)).2 ≤ ((bhSorted ps)[j]).2 := hqkj
  _ = ((bhSorted ps)[j]).2 * 1 := (mul_one _).symm
  _ ≤ ((bhSorted ps)[j]).2 * ((ps.length : ℚ) / ((j : ℚ) + 1)) :=
      mul_le_mul_of_nonneg_left hfrac hj2
  _ = ((bhSorted ps)[j]).2 * (ps.length : ℚ) / ((j : ℚ) + 1) :=
      (mul_div_assoc _ _ _).symm

lemma fdrcorrection_ge (ps : List ℚ) (hp : ∀ x ∈ ps, 0 ≤ x ∧ x ≤ 1)
    (i : Nat) (hi : i < ps.length) :
    ps.getD i 0 ≤ (fdrcorrection ps).getD i 0 := by
  have hir : i < (List.range ps.length).length := by rw [List.length_range]; exact hi
  rw [fdrcorrection, getD_map_get _ _ hir, List.getElem_range]
  have hmem : (i, ps.getD i 0) ∈ ps.enum := by
    apply List.mk_mem_enum_iff_getElem?.mpr
    rw [List.getElem?_eq_getElem hi, getD_of_lt _ hi]
  have hmemS : (i, ps.getD i 0) ∈ bhSorted ps := (bhSorted_perm ps).mem_iff.mpr hmem
  obtain ⟨k, hkget⟩ := List.get_of_mem hmemS
  have hkp : (k : Nat) < (bhPairs ps).length := by
    rw [bhPairs_length, ← bhSorted_length ps]
    exact k.isLt
  have hkc : (k : Nat) < (bhCorr ps).length := by
    rw [bhCorr_length, ← bhSorted_length ps]
    exact k.isLt
  have hfind : (((bhPairs ps).find? fun x => x.1.1 == i)).isSome := by
    apply List.find?_isSome.mpr
    refine ⟨(bhPairs ps)[(k : Nat)], List.getElem_mem hkp, ?_⟩
    have hpget : (bhPairs ps)[(k : Nat)] =
        ((bhSorted ps)[(k : Nat)], (bhCorr ps)[(k : Nat)]) := List.getElem_zip
    have h1 : (bhSorted ps)[(k : Nat)] = (i, ps.getD i 0) := by
      rw [← hkget]
      simp [List.get_eq_getElem]
    rw [hpget]
    simp [h1]
  obtain ⟨x, hx⟩ := Option.isSome_iff_exists.mp hfind
  rw [hx]
  have hpx := List.find?_some hx
  have hx1 : x.1.1 = i := by simpa using hpx
  have hxmem : x ∈ bhPairs ps := List.mem_of_find?_eq_some hx
  obtain ⟨k2, hk2⟩ := List.get_of_mem hxmem
  have hl2 : (k2 : Nat) < ps.length := by
    calc (k2 : Nat) < (bhPairs ps).length := k2.isLt
    _ = ps.length := bhPairs_length ps
  have hk2s : (k2 : Nat) < (bhSorted ps).length := by
    rw [bhSorted_length]
    exact hl2
  have hk2c : (k2 : Nat) < (bhCorr ps).length := by
    rw [bhCorr_length]
    exact hl2
  have hx2 : x = ((bhSorted ps)[(k2 : Nat)], (bhCorr ps)[(k2 : Nat)]) := by
    rw [← hk2, List.get_eq_getElem]
    exact List.getElem_zip
  have hx1mem : x.1 ∈ bhSorted ps := by
    rw [hx2]
    exact List.getElem_mem hk2s
  have hx1enum : x.1 ∈ ps.enum := (bhSorted_perm ps).mem_iff.mp hx1mem
  have hx1get : ps[x.1.1]? = some x.1.2 := List.mk_mem_enum_iff_getElem?.mp hx1enum
  have hxval : x.1.2 = ps.getD i 0 := by
    rw [hx1, List.getElem?_eq_getElem hi] at hx1get
    rw [getD_of_lt _ hi]
    exact (Option.some_inj.mp hx1get).symm
  have hb := bh_sorted_le_corr ps hp k2 hl2
  rw [getD_of_lt _ hk2s, getD_of_lt _ hk2c] at hb
  have hfinal : ps.getD i 0 ≤ x.2 := by
    have he1 : x.1.2 = ((bhSorted ps)[(k2 : Nat)]).2 := by rw [hx2]
    have he2 : x.2 = (bhCorr ps)[(k2 : Nat)] := by rw [hx2]
    rw [he2, ← hxval, he1]
    exact hb
  simpa using hfinal

lemma normP_length (sf : ℚ → ℚ) (Z : Mat) : (normP sf Z).length = Z.length := by
  simp [normP]

lemma normP_row (sf : ℚ → ℚ) (Z : Mat) {i : Nat} (hi : i < Z.length) :
    (normP sf Z).getD i [] = (Z.getD i []).map fun z => sf |z| * 2 := by
  rw [normP, getD_map_get _ _ hi, ← getD_of_lt _ hi ([] : List ℚ)]

lemma normP_row_length (sf : ℚ → ℚ) (Z : Mat) {i : Nat} (hi : i < Z.length) :
    ((normP sf Z).getD i []).length = (Z.getD i []).length := by
  rw [normP_row sf Z hi, List.length_map]

lemma mget_flatten (m : Mat) : ∀ (i j : Nat), i < m.length → j < (m.getD i []).length →
    m.flatten.getD ((m.take i).flatten.length + j) 0 = mget m i j ∧
    (m.take i).flatten.length + j < m.flatten.length := by
  induction m with
  | nil =>
    intro i j hi hj
    simp at hi
  | cons r rs ih =>
    intro i j hi hj
    cases i with
    | zero =>
      rw [List.getD_cons_zero] at hj
      constructor
      · rw [List.take_zero, List.flatten_nil, List.length_nil, Nat.zero_add,
          List.flatten_cons, List.getD_eq_getElem?_getD, List.getElem?_append,
          if_pos hj, ← List.getD_eq_getElem?_getD]
        simp [mget]
      · rw [List.take_zero, List.flatten_nil, List.length_nil, Nat.zero_add,
          List.flatten_cons, List.length_append]
        omega
    | succ i =>
      rw [List.getD_cons_succ] at hj
      have hi' : i < rs.length := Nat.lt_of_succ_lt_succ hi
      obtain ⟨ih1, ih2⟩ := ih i j hi' hj
      constructor
      · rw [List.take_succ_cons, List.flatten_cons, List.flatten_cons, List.length_append,
          List.getD_eq_getElem?_getD, List.getElem?_append, if_neg (by omega)]
        have harith : r.length + (List.take i rs).flatten.length + j - r.length
            = (List.take i rs).flatten.length + j := by omega
        rw [harith, ← List.getD_eq_getElem?_getD]
        rw [show mget (r :: rs) (i + 1) j = mget rs i j from by
          simp [mget, List.getD_cons_succ]]
        exact ih1
      · rw [List.take_succ_cons, List.flatten_cons, List.flatten_cons,
          List.length_append, List.length_append]
        omega

lemma reshapeLike_get (m : Mat) : ∀ (l : List ℚ) (i j : Nat), i < m.length →
    j < (m.getD i []).length →
    mget (reshapeLike m l) i j = l.getD ((m.take i).flatten.length + j) 0 := by
  induction m with
  | nil =>
    intro l i j hi hj
    simp at hi
  | cons r rs ih =>
    intro l i j hi hj
    cases i with
    | zero =>
      rw [List.getD_cons_zero] at hj
      rw [List.take_zero, List.flatten_nil, List.length_nil, Nat.zero_add]
      simp only [reshapeLike, mget, List.getD_cons_zero]
      rw [List.getD_eq_getElem?_getD, List.getElem?_take, if_pos hj,
        ← List.getD_eq_getElem?_getD]
    | succ i =>
      rw [List.getD_cons_succ] at hj
      have hi' : i < rs.length := Nat.lt_of_succ_lt_succ hi
      simp only [reshapeLike, mget, List.getD_cons_succ]
      rw [show ((reshapeLike rs (l.drop r.length)).getD i []).getD j 0
          = mget (reshapeLike rs (l.drop r.length)) i j from rfl]
      rw [ih (l.drop r.length) i j hi' hj]
      rw [List.take_succ_cons, List.flatten_cons, List.length_append,
        List.getD_eq_getElem?_getD, List.getD_eq_getElem?_getD, List.getElem?_drop]
      rw [show r.length + ((List.take i rs).flatten.length + j)
          = r.length + (List.take i rs).flatten.length + j from by omega]

lemma normP_flatten_bounds (sf : ℚ → ℚ) (hsf : ∀ x, 0 ≤ sf x ∧ sf x ≤ 1 / 2) (Z : Mat) :
    ∀ x ∈ (normP sf Z).flatten, 0 ≤ x ∧ x ≤ 1 := by
  intro x hx
  rw [List.mem_flatten] at hx
  obtain ⟨row, hrow, hxr⟩ := hx
  rw [normP, List.mem_map] at hrow
  obtain ⟨zr, hzr, rfl⟩ := hrow
  rw [List.mem_map] at hxr
  obtain ⟨z, hz, rfl⟩ := hxr
  have hb := hsf |z|
  constructor
  · linarith [hb.1]
  · linarith [hb.2]

/-- C7 (confirmed): the FDR-corrected p matrix returned by P is elementwise at least
the raw two-sided p matrix: the Benjamini-Hochberg correction over all flattened
entries (diagonal included) never decreases a p-value. -/
theorem P_fdr_ge_raw (sf : ℚ → ℚ) (Z : Mat) (i j : Nat)
    (hsf : ∀ x, 0 ≤ sf x ∧ sf x ≤ 1 / 2) (hi : i < Z.length)
    (hj : j < (Z.getD i []).length) :
    mget (P sf Z).1 i j ≤ mget (P sf Z).2 i j := by
  have hi' : i < (normP sf Z).length := by rw [normP_length]; exact hi
  have hj' : j < ((normP sf Z).getD i []).length := by
    rw [normP_row_length sf Z hi]; exact hj
  obtain ⟨hflat, hbound⟩ := mget_flatten (normP sf Z) i j hi' hj'
  have hre := reshapeLike_get (normP sf Z) (fdrcorrection (normP sf Z).flatten) i j hi' hj'
  have hge := fdrcorrection_ge (normP sf Z).flatten (normP_flatten_bounds sf hsf Z) _ hbound
  calc mget (P sf Z).1 i j
      = (normP sf Z).flatten.getD (((normP sf Z).take i).flatten.length + j) 0 :=
        hflat.symm
  _ ≤ (fdrcorrection (normP sf Z).flatten).getD
        (((normP sf Z).take i).flatten.length + j) 0 := hge
  _ = mget (P sf Z).2 i j := hre.symm

/-- C7 witness: the monotonicity of the correction evaluated at entry (0,1) of a
concrete 2 x 2 Z matrix with a constant survival function. -/
theorem P_fdr_ge_raw_witness :
    mget (P (fun _ => 1 / 4) [[0, 1], [2, 3]]).1 0 1 ≤
      mget (P (fun _ => 1 / 4) [[0, 1], [2, 3]]).2 0 1 :=
  P_fdr_ge_raw (fun _ => 1 / 4) [[0, 1], [2, 3]] 0 1
    (fun x => ⟨by norm_num, by norm_num⟩) (by decide) (by decide)

lemma argwhereLt_mem (m : Mat) (t : ℚ) (i j : Nat) :
    (i, j) ∈ argwhereLt m t ↔
      i < m.length ∧ j < (m.getD i []).length ∧ mget m i j < t := by
  rw [argwhereLt, List.mem_flatMap]
  constructor
  · rintro ⟨a, ha, hmem⟩
    rw [List.mem_range] at ha
    rw [List.mem_filterMap] at hmem
    obtain ⟨b, hb, heq⟩ := hmem
    rw [List.mem_range] at hb
    rw [Option.ite_none_right_eq_some] at heq
    obtain ⟨hlt, heq2⟩ := heq
    rw [Option.some_inj] at heq2
    injection heq2 with h1 h2
    subst h1
    subst h2
    exact ⟨ha, hb, hlt⟩
  · rintro ⟨hi, hj, hlt⟩
    exact ⟨i, List.mem_range.mpr hi,
      List.mem_filterMap.mpr ⟨j, List.mem_range.mpr hj,
        Option.ite_none_right_eq_some.mpr ⟨hlt, rfl⟩⟩⟩

lemma addSignificant_get (s : Mat) (locs : List (Nat × Nat)) (i j : Nat)
    (hi : i < s.length) (hj : j < (s.getD i []).length) :
    mget (addSignificant s locs) i j =
      if (i, j) ∈ locs then mget s i j + 1 else mget s i j := by
  have hrow : s.getD i [] = s[i] := getD_of_lt _ hi _
  have hj2 : j < s[i].length := by rw [← hrow]; exact hj
  have hi' : i < (addSignificant s locs).length := by
    rw [addSignificant, List.length_mapIdx]
    exact hi
  rw [mget, getD_of_lt _ hi']
  rw [show (addSignificant s locs)[i]
      = s[i].mapIdx fun j v => if (i, j) ∈ locs then v + 1 else v from
    List.getElem_mapIdx ..]
  have hj3 : j < (s[i].mapIdx fun j v => if (i, j) ∈ locs then v + 1 else v).length := by
    rw [List.length_mapIdx]
    exact hj2
  rw [getD_of_lt _ hj3, List.getElem_mapIdx]
  rw [mget, hrow, getD_of_lt _ hj2]

lemma reshapeLike_length (m : Mat) : ∀ l : List ℚ, (reshapeLike m l).length = m.length := by
  induction m with
  | nil => intro l; rfl
  | cons r rs ih =>
    intro l
    simp [reshapeLike, ih]

lemma reshapeLike_row_length (m : Mat) : ∀ (l : List ℚ), l.length = m.flatten.length →
    ∀ {i : Nat}, i < m.length →
      ((reshapeLike m l).getD i []).length = (m.getD i []).length := by
  induction m with
  | nil =>
    intro l hl i hi
    simp at hi
  | cons r rs ih =>
    intro l hl i hi
    cases i with
    | zero =>
      simp only [reshapeLike, List.getD_cons_zero]
      rw [List.length_take]
      rw [List.flatten_cons, List.length_append] at hl
      omega
    | succ i =>
      simp only [reshapeLike, List.getD_cons_succ]
      apply ih
      · rw [List.length_drop]
        rw [List.flatten_cons, List.length_append] at hl
        omega
      · exact Nat.lt_of_succ_lt_succ hi

lemma map_length_row {s Z : Mat} (hs : s.map List.length = Z.map List.length) :
    s.length = Z.length ∧
      ∀ {i : Nat}, i < Z.length → (s.getD i []).length = (Z.getD i []).length := by
  have hlen : s.length = Z.length := by
    have := congrArg List.length hs
    simpa using this
  refine ⟨hlen, ?_⟩
  intro i hi
  have his : i < s.length := by rw [hlen]; exact hi
  have h1 : (s.map List.length)[i]? = (Z.map List.length)[i]? := by rw [hs]
  rw [List.getElem?_map, List.getElem?_map, List.getElem?_eq_getElem his,
    List.getElem?_eq_getElem hi] at h1
  simp only [Option.map_some'] at h1
  rw [getD_of_lt _ his, getD_of_lt _ hi]
  exact Option.some_inj.mp h1

/-- C9 (confirmed): subtype always counts positions with FDR-corrected p below 0.05,
while getConnection with its default fdr=false counts positions with raw p below 0.05
and coincides with the FDR criterion only when fdr=true. -/
theorem significance_thresholds (sf : ℚ → ℚ) (s Z : Mat) (i j : Nat)
    (hs : s.map List.length = Z.map List.length)
    (hi : i < Z.length) (hj : j < (Z.getD i []).length) :
    mget (subtypeStep sf s Z) i j =
      mget s i j + (if mget (P sf Z).2 i j < 1 / 20 then 1 else 0) ∧
    mget (getConnectionStep sf false s Z) i j =
      mget s i j + (if mget (P sf Z).1 i j < 1 / 20 then 1 else 0) ∧
    getConnectionStep sf true s Z = subtypeStep sf s Z := by
  obtain ⟨hlen, hrowlen⟩ := map_length_row hs
  have his : i < s.length := by rw [hlen]; exact hi
  have hjs : j < (s.getD i []).length := by rw [hrowlen hi]; exact hj
  have hinp : i < (normP sf Z).length := by rw [normP_length]; exact hi
  have hicor : i < (P sf Z).2.length := by
    show i < (reshapeLike (normP sf Z) _).length
    rw [reshapeLike_length, normP_length]
    exact hi
  have hjcor : j < ((P sf Z).2.getD i []).length := by
    show j < ((reshapeLike (normP sf Z) _).getD i []).length
    rw [reshapeLike_row_length (normP sf Z) _ (by rw [fdrcorrection_length]) hinp,
      normP_row_length sf Z hi]
    exact hj
  have hiraw : i < (P sf Z).1.length := hinp
  have hjraw : j < ((P sf Z).1.getD i []).length := by
    show j < ((normP sf Z).getD i []).length
    rw [normP_row_length sf Z hi]
    exact hj
  refine ⟨?_, ?_, rfl⟩
  · rw [subtypeStep, addSignificant_get s _ i j his hjs]
    by_cases hmem : mget (P sf Z).2 i j < 1 / 20
    · rw [if_pos ((argwhereLt_mem _ _ i j).mpr ⟨hicor, hjcor, hmem⟩), if_pos hmem]
    · rw [if_neg (fun hc => hmem ((argwhereLt_mem _ _ i j).mp hc).2.2), if_neg hmem]
      exact (add_zero _).symm
  · rw [show getConnectionStep sf false s Z
        = addSignificant s (argwhereLt (P sf Z).1 (1 / 20)) from rfl]
    rw [addSignificant_get s _ i j his hjs]
    by_cases hmem : mget (P sf Z).1 i j < 1 / 20
    · rw [if_pos ((argwhereLt_mem _ _ i j).mpr ⟨hiraw, hjraw, hmem⟩), if_pos hmem]
    · rw [if_neg (fun hc => hmem ((argwhereLt_mem _ _ i j).mp hc).2.2), if_neg hmem]
      exact (add_zero _).symm

/-- C9 witness: the three threshold statements evaluated on a 1 x 1 Z matrix with a
constant survival function. -/
theorem significance_thresholds_witness :
    mget (subtypeStep (fun _ => 1 / 4) [[0]] [[0]]) 0 0 =
      mget [[0]] 0 0 + (if mget (P (fun _ => 1 / 4) [[0]]).2 0 0 < 1 / 20 then 1 else 0) ∧
    mget (getConnectionStep (fun _ => 1 / 4) false [[0]] [[0]]) 0 0 =
      mget [[0]] 0 0 + (if mget (P (fun _ => 1 / 4) [[0]]).1 0 0 < 1 / 20 then 1 else 0) ∧
    getConnectionStep (fun _ => 1 / 4) true [[0]] [[0]] =
      subtypeStep (fun _ => 1 / 4) [[0]] [[0]] :=
  significance_thresholds (fun _ => 1 / 4) [[0]] [[0]] 0 0 rfl (by decide) (by decide)

end IDSCN
